import Mathlib

/-!
Verification development for the CMS "Timely and Effective Care" aggregation
scripts (src/AggregateAndAnalyze.py and src/streamlit_app.py).

The definitions below are a shallow embedding of the pieces of the pipeline
the specification talks about: the facility matcher (exact match first,
fuzzywuzzy fallback), the multi-source filter/concatenate/deduplicate
aggregation, the output namer, the comma-separated query parsing, and the
End-Date parsing used by the measure helpers.  Python strings are modelled
as Lean `String`/`List Char`; the data in this pipeline is ASCII, and the
character classes used (regex `\w`, `str.lower`, `str.strip`) are modelled
on their ASCII behaviour.
-/

namespace CareAgg

/-! ### ASCII character helpers -/

/-- Lowercase an ASCII letter, model of Python `str.lower` on the ASCII
range (characters outside `A`-`Z` are returned unchanged). -/
def pyLower (c : Char) : Char :=
  if h : 65 ≤ c.toNat ∧ c.toNat ≤ 90 then
    Char.ofNatAux (c.toNat + 32) (Or.inl (by omega))
  else c

/-- Word characters of the regex class `\w` (ASCII digits, letters and the
underscore), as used by fuzzywuzzy `utils.full_process`. -/
def isWordChar (c : Char) : Bool :=
  decide (48 ≤ c.toNat ∧ c.toNat ≤ 57) || decide (65 ≤ c.toNat ∧ c.toNat ≤ 90)
    || decide (97 ≤ c.toNat ∧ c.toNat ≤ 122) || decide (c.toNat = 95)

/-- ASCII whitespace as stripped by Python `str.strip` (tab, newline,
vertical tab, form feed, carriage return, space). -/
def isSpaceChar (c : Char) : Bool :=
  decide (c.toNat = 32) || decide (9 ≤ c.toNat ∧ c.toNat ≤ 13)

/-- Remove leading and trailing whitespace from a character list, model of
Python `str.strip()`. -/
def trimSpaces (l : List Char) : List Char :=
  ((l.dropWhile isSpaceChar).reverse.dropWhile isSpaceChar).reverse

/-! ### fuzzywuzzy model

`find_facility_matches` calls
`process.extractOne(user_facility, available_facilities, scorer=fuzz.ratio)`.
In fuzzywuzzy 0.18.0, `extractOne` preprocesses the query and every choice
with the default processor `utils.full_process` (replace every non-`\w`
character by a space, lowercase, strip) because `fuzz.ratio` is not in the
scorer list that bypasses the processor; it then scores each processed pair
with `fuzz.ratio` and returns the `(original choice, score)` pair with the
maximum score, the first such pair in enumeration order on a tie, or `None`
when the choice sequence is empty.  `fuzz.ratio` (python-Levenshtein
backend) is the normalized indel similarity `2*lcs/(|a|+|b|)` scaled to
0-100 and rounded half-to-even (`utils.intr`), with 100 for two empty
strings. -/

/-- One character step of `utils.full_process`: non-word characters become a
space, word characters are lowercased. -/
def fpChar (c : Char) : Char :=
  if isWordChar c then pyLower c else ' '

/-- fuzzywuzzy `utils.full_process`: replace non-word characters with
whitespace, lowercase, strip. -/
def fullProcess (s : String) : List Char :=
  trimSpaces (s.data.map fpChar)

/-- Length of a longest common subsequence, with explicit fuel to keep the
recursion structural (the fuel is always instantiated with a sufficient
value in `lcsLen`). -/
def lcsAux : Nat → List Char → List Char → Nat
  | 0, _, _ => 0
  | _ + 1, [], _ => 0
  | _ + 1, _ :: _, [] => 0
  | fuel + 1, a :: as, b :: bs =>
    if a = b then lcsAux fuel as bs + 1
    else max (lcsAux fuel (a :: as) bs) (lcsAux fuel as (b :: bs))

/-- Length of a longest common subsequence of two character lists.  The
Levenshtein indel distance of `a` and `b` (deletion/insertion cost 1,
substitution cost 2, as used by `Levenshtein.ratio`) equals
`|a| + |b| - 2 * lcsLen a b`. -/
def lcsLen (a b : List Char) : Nat :=
  lcsAux (a.length + b.length) a b

/-- Round the rational `num / den` to the nearest natural number, ties to
even: model of Python 3 `round` (`utils.intr`) on exact values. -/
def roundHalfEven (num den : Nat) : Nat :=
  let q := num / den
  let r := num % den
  if 2 * r < den then q
  else if den < 2 * r then q + 1
  else if q % 2 = 0 then q else q + 1

/-- fuzzywuzzy `fuzz.ratio` on two character lists: the normalized indel
similarity `(|a|+|b|-dist)/(|a|+|b|) = 2*lcs/(|a|+|b|)` on a 0-100 scale,
100 when both are empty. -/
def ratioScore (a b : List Char) : Nat :=
  if a.length + b.length = 0 then 100
  else roundHalfEven (200 * lcsLen a b) (a.length + b.length)

/-- The similarity score the fuzzy branch actually compares against the
threshold: `fuzz.ratio` applied to the `full_process`-ed query and choice,
exactly as `process.extractOne` computes it. -/
def processedScore (q c : String) : Nat :=
  ratioScore (fullProcess q) (fullProcess c)

/-- Fold retaining the best `(choice, score)` pair seen so far; a later
choice replaces the current best only with a strictly greater score, so the
first maximum in enumeration order wins, as Python `max` does. -/
def bestFold (q : String) (init : String × Nat) (cs : List String) : String × Nat :=
  cs.foldl (fun best c => if best.2 < processedScore q c then (c, processedScore q c) else best) init

/-- fuzzywuzzy `process.extractOne(query, choices, scorer=fuzz.ratio)`:
`None` on an empty choice sequence, otherwise the first best-scoring
`(choice, score)` pair.  The Python `available_facilities` set is modelled
as a list in its (implementation-defined) iteration order. -/
def extractOne (q : String) (choices : List String) : Option (String × Nat) :=
  match choices with
  | [] => none
  | c :: cs => some (bestFold q (c, processedScore q c) cs)

/-! ### Facility matcher (`find_facility_matches` in both scripts) -/

/-- Outcome of resolving one user query, following the three annotated
branches of `find_facility_matches`. -/
inductive MatchOutcome where
  | exact (name : String)
  | fuzzy (name : String) (score : Nat)
  | noMatch
deriving DecidableEq, Repr

/-- The per-query branch structure of `find_facility_matches`, parameterized
over the fuzzy extractor: an exact (byte-for-byte) membership test against
the canonical set first; only when it fails, the extractor is consulted and
its best match accepted when its score is strictly greater than 70. -/
def resolveOneWith (ex : String → List String → Option (String × Nat))
    (canonical : List String) (q : String) : MatchOutcome :=
  if q ∈ canonical then .exact q
  else
    match ex q canonical with
    | some (n, s) => if 70 < s then .fuzzy n s else .noMatch
    | none => .noMatch

/-- Per-query resolution of `find_facility_matches` with the real
fuzzywuzzy extractor. -/
def resolveOne (canonical : List String) (q : String) : MatchOutcome :=
  resolveOneWith extractOne canonical q

/-- `find_facility_matches`: map each query through resolution and keep the
matched canonical names, silently dropping the queries with no match. -/
def find_facility_matches (queries canonical : List String) : List String :=
  queries.filterMap fun q =>
    match resolveOne canonical q with
    | .exact n => some n
    | .fuzzy n _ => some n
    | .noMatch => none

/-! ### Aggregation (`main` in src/AggregateAndAnalyze.py, lines 581-652)

A loaded CSV source is modelled as a list of records sharing one column
schema; a record is its `Facility Name` value together with the remaining
column values.  Sources skipped because of read errors contribute no rows
and are modelled as empty sources. -/

/-- One row of loaded tabular data: the `Facility Name` column and the
remaining columns, preserved as-is. -/
structure Record where
  facilityName : String
  fields : List String
deriving DecidableEq, Repr

/-- The per-source filter `df[df['Facility Name'].isin(facility_list)]`. -/
def filterSource (resolved : List String) (src : List Record) : List Record :=
  src.filter fun r => r.facilityName ∈ resolved

/-- Deduplication with an accumulator of already-seen values: keeps the
first occurrence of every value, like `DataFrame.drop_duplicates()` with
its default `keep='first'` over all columns. -/
def dedupAux {α : Type} [DecidableEq α] : List α → List α → List α
  | [], _ => []
  | a :: l, seen => if a ∈ seen then dedupAux l seen else a :: dedupAux l (a :: seen)

/-- `drop_duplicates` over all columns, keeping first occurrences. -/
def pdDedup {α : Type} [DecidableEq α] (l : List α) : List α :=
  dedupAux l []

/-- The seen-accumulator produced by scanning a list (helper for reasoning
about `dedupAux` over concatenations). -/
def seenAfter {α : Type} [DecidableEq α] : List α → List α → List α
  | [], seen => seen
  | a :: l, seen => if a ∈ seen then seenAfter l seen else seenAfter l (a :: seen)

/-- The combined row list before deduplication: every source filtered to
the resolved facilities, concatenated in source-enumeration order. -/
def aggConcat (sources : List (List Record)) (resolved : List String) : List Record :=
  (sources.map (filterSource resolved)).flatten

/-- The Aggregated Table: filter each source, concatenate, drop exact
full-row duplicates. -/
def aggregateRows (sources : List (List Record)) (resolved : List String) : List Record :=
  pdDedup (aggConcat sources resolved)

/-- Failure modes of one aggregation run.  The script reports these by
printing and returning early; the names follow the error taxonomy of the
specification (`NoFacilitiesResolvedError`, `NoDataFoundError`). -/
inductive AggError where
  | noFacilitiesResolvedError
  | noDataFoundError
deriving DecidableEq, Repr

/-- The aggregation flow of `main`: return early when no facility resolved
(before any filtering), collect the non-empty filtered frames, return early
when there are none, otherwise concatenate and deduplicate.  An `error`
result models the early returns, where no output folder or file is
produced. -/
def runAggregation (sources : List (List Record)) (resolved : List String) :
    Except AggError (List Record) :=
  if resolved = [] then .error .noFacilitiesResolvedError
  else if (sources.map (filterSource resolved)).filter (fun f => f ≠ []) = [] then
    .error .noDataFoundError
  else .ok (pdDedup (((sources.map (filterSource resolved)).filter fun f => f ≠ []).flatten))

/-- Refinement model taken from the claim's words: scan the combined row
list left to right and keep the first occurrence of every row value, in
first-occurrence order. -/
def keepFirstOccurrences {α : Type} [DecidableEq α] (l : List α) : List α :=
  l.foldl (fun acc a => if a ∈ acc then acc else acc ++ [a]) []

/-! ### Output namer (`main` in src/AggregateAndAnalyze.py, lines 609-623) -/

/-- The sanitization chain
`name.replace(" ", "_").replace("/", "_").replace("\\", "_")`: each pattern
is a single character and the underscore replacement is none of the
patterns, so the chain is this character-wise map. -/
def sanitize (s : String) : String :=
  String.mk (s.data.map fun c => if c = ' ' ∨ c = '/' ∨ c = '\\' then '_' else c)

/-- Python `"_".join`. -/
def joinUnderscore : List String → String
  | [] => ""
  | [x] => x
  | x :: y :: xs => x ++ "_" ++ joinUnderscore (y :: xs)

/-- Output folder and file naming: a single resolved facility uses its
sanitized name as folder and `{name}_aggregate.csv` as file; otherwise the
folder joins the first three sanitized names with underscores, appending
`_and_{N-3}_others` when more than three facilities resolved, and the file
is the literal `Aggregated_Facilities_Data.csv`. -/
def name_outputs (facilityList : List String) : String × String :=
  match facilityList with
  | [f] => (sanitize f, sanitize f ++ "_aggregate.csv")
  | l =>
    let firstThree := (l.take 3).map sanitize
    let folder :=
      if 3 < l.length then
        joinUnderscore firstThree ++ "_and_" ++ toString (l.length - 3) ++ "_others"
      else joinUnderscore firstThree
    (folder, "Aggregated_Facilities_Data.csv")

/-! ### User query parsing -/

/-- Helper for `pySplit`: accumulate the current piece (reversed) while
scanning. -/
def splitCharAux (sep : Char) : List Char → List Char → List String
  | [], acc => [String.mk acc.reverse]
  | c :: cs, acc =>
    if c = sep then String.mk acc.reverse :: splitCharAux sep cs []
    else splitCharAux sep cs (c :: acc)

/-- Python `str.split(sep)` for a single-character separator: the empty
string yields `[""]`, and adjacent separators yield empty pieces. -/
def pySplit (sep : Char) (s : String) : List String :=
  splitCharAux sep s.data []

/-- Python `str.strip()` (ASCII whitespace). -/
def pyStrip (s : String) : String :=
  String.mk (trimSpaces s.data)

/-- Query-list construction of the batch script (line 555):
`[name.strip() for name in facilities_input.split(',')]` — items are
trimmed but empty items are kept. -/
def parse_queries_batch (s : String) : List String :=
  (pySplit ',' s).map pyStrip

/-- Query-list construction of the Streamlit app (line 567):
`[name.strip() for name in facilities_input.split(',') if name.strip()]` —
trimmed items, with items empty after trimming discarded. -/
def parse_queries_app (s : String) : List String :=
  ((pySplit ',' s).map pyStrip).filter fun q => q ≠ ""

/-! ### End-Date parsing (measure helpers)

`pd.to_datetime(column, format=..., errors='coerce')` parses each string
against a strptime format and yields a missing value where the parse
fails.  The strptime fields are `%m` (one or two digits, 1-12), `%d` (one
or two digits, 1-31, further constrained by the calendar on datetime
construction), `%y` (exactly two digits, pivoted 00-68 to 2000-2068 and
69-99 to 1969-1999) and `%Y` (exactly four digits); the whole string must
match.  The pandas `Timestamp` range restriction (years outside roughly
1677-2262 also coerce to missing) is not modelled; no claim depends on
it. -/

/-- A parsed calendar date. -/
structure Date where
  year : Nat
  month : Nat
  day : Nat
deriving DecidableEq, Repr

/-- Days in a month of the proleptic Gregorian calendar. -/
def daysInMonth (y m : Nat) : Nat :=
  if m = 2 then (if y % 4 = 0 ∧ (y % 100 ≠ 0 ∨ y % 400 = 0) then 29 else 28)
  else if m = 4 ∨ m = 6 ∨ m = 9 ∨ m = 11 then 30
  else 31

/-- Numeric value of a non-empty all-digit character list. -/
def digitsVal (l : List Char) : Option Nat :=
  if !l.isEmpty && l.all Char.isDigit then
    some (l.foldl (fun n c => n * 10 + (c.toNat - 48)) 0)
  else none

/-- One strptime numeric field: all digits, length between `minLen` and
`maxLen`, value between `lo` and `hi`. -/
def fieldVal (minLen maxLen lo hi : Nat) (p : String) : Option Nat :=
  match digitsVal p.data with
  | some v =>
    if minLen ≤ p.data.length ∧ p.data.length ≤ maxLen ∧ lo ≤ v ∧ v ≤ hi then some v
    else none
  | none => none

/-- Split into exactly three slash-separated parts. -/
def slashTriple (s : String) : Option (String × String × String) :=
  match pySplit '/' s with
  | [a, b, c] => some (a, b, c)
  | _ => none

/-- strptime format `%m/%d/%y`: month/day/two-digit pivoted year, with
calendar validation as performed by `datetime` construction. -/
def parseMDY2 (s : String) : Option Date :=
  match slashTriple s with
  | some (ms, ds, ys) =>
    match fieldVal 1 2 1 12 ms, fieldVal 1 2 1 31 ds, fieldVal 2 2 0 99 ys with
    | some m, some d, some y2 =>
      let y := if y2 ≤ 68 then 2000 + y2 else 1900 + y2
      if d ≤ daysInMonth y m then some ⟨y, m, d⟩ else none
    | _, _, _ => none
  | none => none

/-- strptime format `%m/%d/%Y`: month/day/four-digit year, with calendar
validation as performed by `datetime` construction. -/
def parseMDY4 (s : String) : Option Date :=
  match slashTriple s with
  | some (ms, ds, ys) =>
    match fieldVal 1 2 1 12 ms, fieldVal 1 2 1 31 ds, fieldVal 4 4 0 9999 ys with
    | some m, some d, some y =>
      if d ≤ daysInMonth y m then some ⟨y, m, d⟩ else none
    | _, _, _ => none
  | none => none

/-- Modelled from the spec: the unconstrained format inference fallback
(`pd.to_datetime(..., infer_datetime_format=True)`, whose dateutil-based
behaviour is not part of this repository), restricted to the
month/day/year slash forms this pipeline encounters. -/
def inferDate (s : String) : Option Date :=
  match parseMDY4 s with
  | some t => some t
  | none => parseMDY2 s

/-- The parser the Streamlit chain ends up applying to every row: the
four-digit-year format when at least one row parses under it, else the
two-digit-year format when at least one row parses under it, else format
inference (`create_interactive_plot`, lines 330-343: each fallback is taken
only when the previously assigned column is entirely missing). -/
def selectFormat (dates : List String) : String → Option Date :=
  if dates.any fun d => (parseMDY4 d).isSome then parseMDY4
  else if dates.any fun d => (parseMDY2 d).isSome then parseMDY2
  else inferDate

/-- End-Date parsing of `create_interactive_plot` (src/streamlit_app.py,
lines 330-358): parse the column under the selected format and drop the
rows whose value is missing (`dropna` on the parsed column).  A row is
modelled by its `End Date` string; retained rows are paired with their
parsed date. -/
def parse_end_date_app (dates : List String) : List (String × Date) :=
  dates.filterMap fun d => (selectFormat dates d).map fun t => (d, t)

/-- Collect a list of options, failing if any entry is missing (models
`errors='raise'`: one unparseable value fails the whole column). -/
def allSome {α : Type} : List (Option α) → Option (List α)
  | [] => some []
  | none :: _ => none
  | some a :: l => (allSome l).map (a :: ·)

/-- End-Date parsing of the batch script (src/AggregateAndAnalyze.py,
lines 86-94): try `%m/%d/%y` on the whole column with errors raised, fall
back to format inference on the whole column, and abandon plotting
(`none`) when that also raises; no individual row is ever dropped. -/
def parse_end_date_batch (dates : List String) : Option (List (String × Date)) :=
  match allSome (dates.map fun d => (parseMDY2 d).map fun t => (d, t)) with
  | some rs => some rs
  | none => allSome (dates.map fun d => (inferDate d).map fun t => (d, t))

/-! ### Helper lemmas -/

theorem lcsAux_symm (fuel : Nat) : ∀ a b, lcsAux fuel a b = lcsAux fuel b a := by
  induction fuel with
  | zero => intro a b; rfl
  | succ f ih =>
    intro a b
    match a, b with
    | [], [] => rfl
    | [], _ :: _ => rfl
    | _ :: _, [] => rfl
    | x :: xs, y :: ys =>
      simp only [lcsAux]
      by_cases h : x = y
      · subst h; rw [if_pos rfl, if_pos rfl, ih]
      · rw [if_neg h, if_neg fun hh => h hh.symm, ih (x :: xs) ys, ih xs (y :: ys),
          Nat.max_comm]

theorem lcsLen_symm (a b : List Char) : lcsLen a b = lcsLen b a := by
  unfold lcsLen
  rw [lcsAux_symm, Nat.add_comm a.length b.length]

theorem ratioScore_symm (a b : List Char) : ratioScore a b = ratioScore b a := by
  unfold ratioScore
  rw [lcsLen_symm, Nat.add_comm a.length b.length]

theorem processedScore_symm (q c : String) : processedScore q c = processedScore c q :=
  ratioScore_symm _ _

theorem toNat_pyLower (c : Char) :
    (pyLower c).toNat = if 65 ≤ c.toNat ∧ c.toNat ≤ 90 then c.toNat + 32 else c.toNat := by
  by_cases h : 65 ≤ c.toNat ∧ c.toNat ≤ 90
  · simp only [pyLower, dif_pos h, if_pos h]; rfl
  · simp only [pyLower, dif_neg h, if_neg h]

theorem pyLower_eq_self (c : Char) (h : ¬(65 ≤ c.toNat ∧ c.toNat ≤ 90)) : pyLower c = c := by
  simp only [pyLower, dif_neg h]

theorem isWordChar_iff (c : Char) :
    isWordChar c = true ↔
      (48 ≤ c.toNat ∧ c.toNat ≤ 57) ∨ (65 ≤ c.toNat ∧ c.toNat ≤ 90)
        ∨ (97 ≤ c.toNat ∧ c.toNat ≤ 122) ∨ c.toNat = 95 := by
  simp [isWordChar, Bool.or_eq_true, decide_eq_true_eq, or_assoc]

theorem fpChar_pyLower (c : Char) : fpChar (pyLower c) = fpChar c := by
  by_cases h : 65 ≤ c.toNat ∧ c.toNat ≤ 90
  · have ht : (pyLower c).toNat = c.toNat + 32 := by rw [toNat_pyLower, if_pos h]
    have hw : isWordChar c = true := (isWordChar_iff c).mpr (Or.inr (Or.inl h))
    have hw' : isWordChar (pyLower c) = true :=
      (isWordChar_iff _).mpr (Or.inr (Or.inr (Or.inl (by omega))))
    have hfix : pyLower (pyLower c) = pyLower c := pyLower_eq_self _ (by omega)
    simp only [fpChar, hw, hw', if_pos rfl, hfix]
  · rw [pyLower_eq_self c h]

theorem map_fpChar_congr :
    ∀ {l₁ l₂ : List Char}, l₁.map pyLower = l₂.map pyLower → l₁.map fpChar = l₂.map fpChar := by
  intro l₁
  induction l₁ with
  | nil => intro l₂ h; cases l₂ <;> simp_all
  | cons a l ih =>
    intro l₂ h
    cases l₂ with
    | nil => simp_all
    | cons b l' =>
      simp only [List.map_cons, List.cons.injEq] at h ⊢
      exact ⟨by rw [← fpChar_pyLower a, ← fpChar_pyLower b, h.1], ih h.2⟩

theorem bestFold_spec (q : String) :
    ∀ (cs : List String) (p : String × Nat), p.2 = processedScore q p.1 →
      (bestFold q p cs).2 = processedScore q (bestFold q p cs).1
        ∧ (bestFold q p cs = p ∨ (bestFold q p cs).1 ∈ cs)
        ∧ p.2 ≤ (bestFold q p cs).2
        ∧ ∀ c ∈ cs, processedScore q c ≤ (bestFold q p cs).2 := by
  intro cs
  induction cs with
  | nil => intro p hp; exact ⟨hp, Or.inl rfl, Nat.le_refl _, by simp⟩
  | cons c cs ih =>
    intro p hp
    by_cases hlt : p.2 < processedScore q c
    · rcases ih (c, processedScore q c) rfl with ⟨h1, h2, h3, h4⟩
      have hb : bestFold q p (c :: cs) = bestFold q (c, processedScore q c) cs := by
        simp only [bestFold, List.foldl_cons, if_pos hlt]
      rw [hb]
      refine ⟨h1, ?_, ?_, ?_⟩
      · rcases h2 with h2 | h2
        · rw [h2]; exact Or.inr (List.mem_cons_self c cs)
        · exact Or.inr (List.mem_cons_of_mem _ h2)
      · exact Nat.le_trans (Nat.le_of_lt hlt) h3
      · intro x hx
        rcases List.mem_cons.mp hx with rfl | hx
        · exact h3
        · exact h4 x hx
    · rcases ih p hp with ⟨h1, h2, h3, h4⟩
      have hb : bestFold q p (c :: cs) = bestFold q p cs := by
        simp only [bestFold, List.foldl_cons, if_neg hlt]
      rw [hb]
      refine ⟨h1, ?_, ?_, ?_⟩
      · rcases h2 with h2 | h2
        · exact Or.inl h2
        · exact Or.inr (List.mem_cons_of_mem _ h2)
      · exact h3
      · intro x hx
        rcases List.mem_cons.mp hx with rfl | hx
        · exact Nat.le_trans (Nat.le_of_not_lt hlt) h3
        · exact h4 x hx

theorem extractOne_spec (q : String) (choices : List String) (n : String) (s : Nat)
    (h : extractOne q choices = some (n, s)) :
    n ∈ choices ∧ s = processedScore q n ∧ ∀ c ∈ choices, processedScore q c ≤ s := by
  match choices with
  | [] => exact absurd h (by simp [extractOne])
  | c :: cs =>
    rcases bestFold_spec q cs (c, processedScore q c) rfl with ⟨h1, h2, h3, h4⟩
    have hbe : bestFold q (c, processedScore q c) cs = (n, s) := by
      simpa [extractOne] using h
    rw [hbe] at h1 h2 h3 h4
    refine ⟨?_, h1, ?_⟩
    · rcases h2 with h2 | h2
      · rw [show n = c from congrArg Prod.fst h2]; exact List.mem_cons_self c cs
      · exact List.mem_cons_of_mem _ h2
    · intro x hx
      rcases List.mem_cons.mp hx with rfl | hx
      · exact h3
      · exact h4 x hx

theorem extractOne_eq_none (q : String) (choices : List String) :
    extractOne q choices = none ↔ choices = [] := by
  cases choices <;> simp [extractOne]

theorem mem_dedupAux {α : Type} [DecidableEq α] (x : α) :
    ∀ (l seen : List α), x ∈ dedupAux l seen ↔ x ∈ l ∧ x ∉ seen := by
  intro l
  induction l with
  | nil => intro seen; simp [dedupAux]
  | cons a l ih =>
    intro seen
    simp only [dedupAux]
    by_cases h : a ∈ seen
    · rw [if_pos h, ih, List.mem_cons]
      constructor
      · exact fun hx => ⟨Or.inr hx.1, hx.2⟩
      · rintro ⟨rfl | hx, hs⟩
        · exact absurd h hs
        · exact ⟨hx, hs⟩
    · rw [if_neg h, List.mem_cons, ih, List.mem_cons, List.mem_cons]
      constructor
      · rintro (rfl | ⟨hx, hs⟩)
        · exact ⟨Or.inl rfl, h⟩
        · exact ⟨Or.inr hx, fun hs' => hs (Or.inr hs')⟩
      · rintro ⟨rfl | hx, hs⟩
        · exact Or.inl rfl
        · by_cases hxa : x = a
          · exact Or.inl hxa
          · exact Or.inr ⟨hx, fun hor => hor.elim hxa hs⟩

theorem nodup_dedupAux {α : Type} [DecidableEq α] :
    ∀ (l seen : List α), (dedupAux l seen).Nodup := by
  intro l
  induction l with
  | nil => intro seen; simp [dedupAux]
  | cons a l ih =>
    intro seen
    simp only [dedupAux]
    split
    · exact ih seen
    · refine List.nodup_cons.mpr ⟨?_, ih (a :: seen)⟩
      rw [mem_dedupAux]
      rintro ⟨-, hs⟩
      exact hs (List.mem_cons_self a seen)

theorem sublist_dedupAux {α : Type} [DecidableEq α] :
    ∀ (l seen : List α), (dedupAux l seen).Sublist l := by
  intro l
  induction l with
  | nil => intro seen; simp [dedupAux]
  | cons a l ih =>
    intro seen
    simp only [dedupAux]
    split
    · exact List.Sublist.cons a (ih seen)
    · exact List.Sublist.cons₂ a (ih (a :: seen))

theorem dedupAux_append {α : Type} [DecidableEq α] :
    ∀ (l₁ l₂ seen : List α),
      dedupAux (l₁ ++ l₂) seen = dedupAux l₁ seen ++ dedupAux l₂ (seenAfter l₁ seen) := by
  intro l₁
  induction l₁ with
  | nil => intro l₂ seen; rfl
  | cons a l ih =>
    intro l₂ seen
    simp only [List.cons_append, dedupAux, seenAfter]
    by_cases h : a ∈ seen
    · simp only [if_pos h]
      exact ih l₂ seen
    · simp only [if_neg h]
      rw [List.append_eq, ih]
      simp [List.cons_append]

theorem mem_seenAfter {α : Type} [DecidableEq α] (x : α) :
    ∀ (l seen : List α), x ∈ seenAfter l seen ↔ x ∈ l ∨ x ∈ seen := by
  intro l
  induction l with
  | nil => intro seen; simp [seenAfter]
  | cons a l ih =>
    intro seen
    simp only [seenAfter]
    by_cases h : a ∈ seen
    · rw [if_pos h, ih, List.mem_cons]
      constructor
      · tauto
      · rintro ((rfl | hx) | hs)
        · exact Or.inr h
        · exact Or.inl hx
        · exact Or.inr hs
    · rw [if_neg h, ih, List.mem_cons, List.mem_cons]
      tauto

theorem dedupAux_eq_nil_of_subset {α : Type} [DecidableEq α] :
    ∀ (l seen : List α), (∀ x ∈ l, x ∈ seen) → dedupAux l seen = [] := by
  intro l
  induction l with
  | nil => intro seen _; rfl
  | cons a l ih =>
    intro seen h
    simp only [dedupAux, if_pos (h a (List.mem_cons_self a l))]
    exact ih seen fun x hx => h x (List.mem_cons_of_mem _ hx)

theorem pdDedup_append_self {α : Type} [DecidableEq α] (l : List α) :
    pdDedup (l ++ l) = pdDedup l := by
  unfold pdDedup
  rw [dedupAux_append,
    dedupAux_eq_nil_of_subset l (seenAfter l []) fun x hx => (mem_seenAfter x l []).mpr (Or.inl hx),
    List.append_nil]

theorem foldl_keepFirst {α : Type} [DecidableEq α] :
    ∀ (l acc seen : List α), (∀ x, x ∈ acc ↔ x ∈ seen) →
      List.foldl (fun acc a => if a ∈ acc then acc else acc ++ [a]) acc l
        = acc ++ dedupAux l seen := by
  intro l
  induction l with
  | nil => intro acc seen _; simp [dedupAux]
  | cons a l ih =>
    intro acc seen hiff
    simp only [List.foldl_cons, dedupAux]
    by_cases h : a ∈ seen
    · rw [if_pos ((hiff a).mpr h), if_pos h]
      exact ih acc seen hiff
    · rw [if_neg fun hh => h ((hiff a).mp hh), if_neg h,
        ih (acc ++ [a]) (a :: seen) (by
          intro x
          simp only [List.mem_append, List.mem_cons, List.mem_singleton, hiff x]
          tauto)]
      simp

theorem keepFirstOccurrences_eq_pdDedup {α : Type} [DecidableEq α] (l : List α) :
    keepFirstOccurrences l = pdDedup l := by
  unfold keepFirstOccurrences pdDedup
  rw [foldl_keepFirst l [] [] fun x => Iff.rfl]
  simp

theorem flatten_filter_ne_nil {α : Type} [DecidableEq α] :
    ∀ L : List (List α), (L.filter fun f => f ≠ []).flatten = L.flatten := by
  intro L
  induction L with
  | nil => rfl
  | cons a L ih =>
    simp only [List.filter_cons]
    by_cases h : a = []
    · rw [if_neg (by simp [h]), ih, h]
      simp
    · rw [if_pos (by simp [h])]
      simp only [List.flatten_cons, ih]

theorem allSome_length {α : Type} :
    ∀ (l : List (Option α)) (r : List α), allSome l = some r → r.length = l.length := by
  intro l
  induction l with
  | nil =>
    intro r h
    simp only [allSome, Option.some.injEq] at h
    subst h; rfl
  | cons o l ih =>
    intro r h
    cases o with
    | none => simp [allSome] at h
    | some a =>
      simp only [allSome] at h
      rcases Option.map_eq_some'.mp h with ⟨r', hr', rfl⟩
      simp [ih r' hr']

theorem allSome_mem {α : Type} :
    ∀ (l : List (Option α)) (r : List α), allSome l = some r → ∀ x ∈ r, some x ∈ l := by
  intro l
  induction l with
  | nil =>
    intro r h
    simp only [allSome, Option.some.injEq] at h
    subst h; simp
  | cons o l ih =>
    intro r h
    cases o with
    | none => simp [allSome] at h
    | some a =>
      simp only [allSome] at h
      rcases Option.map_eq_some'.mp h with ⟨r', hr', rfl⟩
      intro x hx
      rcases List.mem_cons.mp hx with rfl | hx
      · exact List.mem_cons_self _ _
      · exact List.mem_cons_of_mem _ (ih r' hr' x hx)

/-! ### Claim theorems -/

/-- C1: for a query with no exact match in the canonical set, the best-scoring
canonical name is accepted as a fuzzy match exactly when its similarity
score is strictly greater than 70; with a best score of 70 or lower, or an
empty canonical set, the query resolves to no match. -/
theorem fuzzy_threshold_strict (canonical : List String) (q : String)
    (hq : q ∉ canonical) :
    (canonical = [] → resolveOne canonical q = .noMatch)
    ∧ ∀ n s, extractOne q canonical = some (n, s) →
        n ∈ canonical
          ∧ (∀ c ∈ canonical, processedScore q c ≤ s)
          ∧ (70 < s → resolveOne canonical q = .fuzzy n s)
          ∧ (s ≤ 70 → resolveOne canonical q = .noMatch) := by
  have hres : resolveOne canonical q =
      match extractOne q canonical with
      | some (n, s) => if 70 < s then .fuzzy n s else .noMatch
      | none => .noMatch := by
    unfold resolveOne resolveOneWith
    rw [if_neg hq]
  constructor
  · intro hc
    subst hc
    rw [hres]
    rfl
  · intro n s hex
    rcases extractOne_spec q canonical n s hex with ⟨hmem, -, hbound⟩
    refine ⟨hmem, hbound, ?_, ?_⟩
    · intro h70
      rw [hres, hex]
      simp [h70]
    · intro h70
      rw [hres, hex]
      simp [Nat.not_lt.mpr h70]

/-- C1 witness: the query `abcx` has no exact match against
`["abcd", "xyz"]`, its best fuzzy score is 75 > 70, and it resolves to the
fuzzy match `abcd`. -/
theorem fuzzy_threshold_strict_witness :
    resolveOne ["abcd", "xyz"] "abcx" = .fuzzy "abcd" 75 :=
  ((fuzzy_threshold_strict ["abcd", "xyz"] "abcx" (by decide)).2 "abcd" 75
    (by decide)).2.2.1 (by decide)

/-- C2: a query byte-for-byte present in the canonical set resolves to an
exact match of itself for every possible fuzzy extractor (so no similarity
score is ever consulted), and an exact outcome arises only from
byte-for-byte membership of the query itself. -/
theorem exact_match_first :
    (∀ (ex : String → List String → Option (String × Nat)) (canonical : List String)
        (q : String), q ∈ canonical → resolveOneWith ex canonical q = .exact q)
    ∧ ∀ (canonical : List String) (q n : String),
        resolveOne canonical q = .exact n → n = q ∧ q ∈ canonical := by
  constructor
  · intro ex canonical q hq
    unfold resolveOneWith
    rw [if_pos hq]
  · intro canonical q n h
    unfold resolveOne resolveOneWith at h
    by_cases hq : q ∈ canonical
    · rw [if_pos hq] at h
      injection h with h'
      exact ⟨h'.symm, hq⟩
    · rw [if_neg hq] at h
      cases hex : extractOne q canonical with
      | none => rw [hex] at h; simp at h
      | some p =>
        obtain ⟨n', s⟩ := p
        rw [hex] at h
        by_cases h70 : 70 < s <;> simp [h70] at h

/-- C2 witness: an exact query resolves to itself even under an extractor
that would otherwise return a perfect-score different name. -/
theorem exact_match_first_witness :
    resolveOneWith (fun _ _ => some ("bogus", 100)) ["Mercy General"] "Mercy General"
      = .exact "Mercy General" :=
  exact_match_first.1 (fun _ _ => some ("bogus", 100)) ["Mercy General"] "Mercy General"
    (by decide)

/-- C3: every row of a successfully produced Aggregated Table has its
facility name in the resolved list, and the table has no two identical
rows. -/
theorem aggregated_table_invariants (sources : List (List Record)) (resolved : List String)
    (t : List Record) (h : runAggregation sources resolved = .ok t) :
    (∀ r ∈ t, r.facilityName ∈ resolved) ∧ t.Nodup := by
  unfold runAggregation at h
  by_cases h1 : resolved = []
  · rw [if_pos h1] at h
    simp at h
  · rw [if_neg h1] at h
    by_cases h2 : (sources.map (filterSource resolved)).filter (fun f => f ≠ []) = []
    · rw [if_pos h2] at h
      simp at h
    · rw [if_neg h2] at h
      injection h with h'
      subst h'
      constructor
      · intro r hr
        rcases (mem_dedupAux r _ _).mp hr with ⟨hrf, -⟩
        rcases List.mem_flatten.mp hrf with ⟨f, hf, hrf2⟩
        rcases List.mem_map.mp (List.mem_of_mem_filter hf) with ⟨src, -, rfl⟩
        unfold filterSource at hrf2
        exact of_decide_eq_true (List.mem_filter.mp hrf2).2
      · exact nodup_dedupAux _ _

/-- C3 witness: a one-source, one-facility run returns a table satisfying
both invariants. -/
theorem aggregated_table_invariants_witness :
    (∀ r ∈ [Record.mk "F" ["1"]], r.facilityName ∈ ["F"])
    ∧ ([Record.mk "F" ["1"]] : List Record).Nodup :=
  aggregated_table_invariants [[Record.mk "F" ["1"]]] ["F"] [Record.mk "F" ["1"]] rfl

/-- C4: aggregating a duplicated source yields the same result as
aggregating the source once, provided the source has a row for a resolved
facility. -/
theorem aggregation_idempotent_dup_source (A : List Record) (resolved : List String)
    (h : ∃ r ∈ A, r.facilityName ∈ resolved) :
    runAggregation [A, A] resolved = runAggregation [A] resolved := by
  rcases h with ⟨r, hrA, hrres⟩
  have hres : resolved ≠ [] := by
    rintro rfl
    simp at hrres
  have hF : r ∈ filterSource resolved A := by
    unfold filterSource
    exact List.mem_filter.mpr ⟨hrA, decide_eq_true hrres⟩
  have hFne : filterSource resolved A ≠ [] := List.ne_nil_of_mem hF
  have hkept2 : (([A, A]).map (filterSource resolved)).filter (fun f => f ≠ [])
      = [filterSource resolved A, filterSource resolved A] := by
    simp [List.filter_cons, hFne]
  have hkept1 : (([A]).map (filterSource resolved)).filter (fun f => f ≠ [])
      = [filterSource resolved A] := by
    simp [List.filter_cons, hFne]
  unfold runAggregation
  rw [if_neg hres, if_neg hres, hkept2, hkept1,
    if_neg (by simp : ¬([filterSource resolved A, filterSource resolved A] = [])),
    if_neg (by simp : ¬([filterSource resolved A] = []))]
  have h2 : ([filterSource resolved A, filterSource resolved A] : List (List Record)).flatten
      = filterSource resolved A ++ filterSource resolved A := by simp
  have h1 : ([filterSource resolved A] : List (List Record)).flatten
      = filterSource resolved A := by simp
  rw [h2, h1, pdDedup_append_self]

/-- C4 witness: duplicating a concrete one-row source leaves the
aggregation result unchanged. -/
theorem aggregation_idempotent_dup_source_witness :
    runAggregation [[Record.mk "F" ["1"]], [Record.mk "F" ["1"]]] ["F"]
      = runAggregation [[Record.mk "F" ["1"]]] ["F"] :=
  aggregation_idempotent_dup_source [Record.mk "F" ["1"]] ["F"]
    ⟨Record.mk "F" ["1"], by decide, by decide⟩

/-- C5: sanitization replaces exactly the space, forward-slash and
backslash characters by underscores; a single resolved facility names the
folder after itself and the file `{name}_aggregate.csv`; several resolved
facilities keep the first three sanitized names joined by underscores,
append `_and_{N-3}_others` when more than three resolved, and use the
literal multi-facility file name; including the two concrete examples from
the specification. -/
theorem output_naming_rules :
    (∀ (s : String) (i : Nat),
        (sanitize s).data[i]?
          = (s.data[i]?.map fun c => if c = ' ' ∨ c = '/' ∨ c = '\\' then '_' else c))
    ∧ (∀ f : String, name_outputs [f] = (sanitize f, sanitize f ++ "_aggregate.csv"))
    ∧ (∀ l : List String, 2 ≤ l.length →
        (name_outputs l).2 = "Aggregated_Facilities_Data.csv"
          ∧ (name_outputs l).1 =
              (if 3 < l.length then
                joinUnderscore ((l.take 3).map sanitize) ++ "_and_" ++ toString (l.length - 3)
                  ++ "_others"
              else joinUnderscore ((l.take 3).map sanitize)))
    ∧ name_outputs ["Mercy General"] = ("Mercy_General", "Mercy_General_aggregate.csv")
    ∧ name_outputs ["A", "B", "C", "D"]
        = ("A_B_C_and_1_others", "Aggregated_Facilities_Data.csv") := by
  refine ⟨?_, fun f => rfl, ?_, by decide, by decide⟩
  · intro s i
    simp [sanitize, List.getElem?_map]
  · intro l hl
    rcases l with _ | ⟨x, _ | ⟨y, xs⟩⟩
    · exact absurd hl (by simp)
    · exact absurd hl (by simp)
    · exact ⟨rfl, rfl⟩

/-- C5 witness: the multi-facility branch instantiated at the two-element
list `["A", "B"]`. -/
theorem output_naming_rules_witness :
    (name_outputs ["A", "B"]).2 = "Aggregated_Facilities_Data.csv"
    ∧ (name_outputs ["A", "B"]).1 =
        (if 3 < (["A", "B"] : List String).length then
          joinUnderscore (((["A", "B"] : List String).take 3).map sanitize) ++ "_and_"
            ++ toString ((["A", "B"] : List String).length - 3) ++ "_others"
        else joinUnderscore (((["A", "B"] : List String).take 3).map sanitize)) :=
  output_naming_rules.2.2.1 ["A", "B"] (by decide)

/-- C6 counterexample: the score used by the fuzzy branch is blind to
letter case: `AB` and `ab` are different strings scoring 100 (identical),
and a query differing from a canonical name only in case resolves to a
perfect-score fuzzy match. -/
theorem fuzzy_score_case_blind :
    "AB" ≠ "ab"
    ∧ processedScore "AB" "ab" = 100
    ∧ resolveOne ["Mercy"] "mercy" = .fuzzy "Mercy" 100 :=
  ⟨by decide, by decide, by decide⟩

/-- C6 amended: the similarity score used by the fuzzy branch is symmetric,
but case-insensitive: lowercasing either argument never changes the score,
because the extractor preprocesses both strings with a lowercasing
processor. -/
theorem fuzzy_score_symm_case_insensitive :
    (∀ a b : String, processedScore a b = processedScore b a)
    ∧ (∀ a a' b : String, a.data.map pyLower = a'.data.map pyLower →
        processedScore a b = processedScore a' b) := by
  constructor
  · exact processedScore_symm
  · intro a a' b h
    unfold processedScore fullProcess
    rw [map_fpChar_congr h]

/-- C6 amended witness: `AB` and `ab` agree under lowercasing, hence score
identically against any third string. -/
theorem fuzzy_score_symm_case_insensitive_witness :
    processedScore "AB" "x" = processedScore "ab" "x" :=
  fuzzy_score_symm_case_insensitive.2 "AB" "ab" "x" (by decide)

/-- C7 counterexample: on the column `["06/30/2023", "06/30/23"]` the
Streamlit parse retains only the four-digit-year row and drops the row
`06/30/23` although it parses under the attempted `%m/%d/%y` format; so
the two-digit-year format is not attempted first and not every row
parseable under some attempted format is retained. -/
theorem end_date_mixed_formats_dropped :
    parse_end_date_app ["06/30/2023", "06/30/23"]
      = [("06/30/2023", Date.mk 2023 6 30)]
    ∧ (parseMDY2 "06/30/23").isSome = true :=
  ⟨by decide, by decide⟩

/-- C7 amended: the Streamlit chain selects a single parser — the
four-digit-year format if any row parses under it, else the two-digit-year
format if any row parses under it, else format inference — and retains
exactly the rows parseable under that selected parser; every retained row
parsed under one of the three attempted formats.  The batch script instead
applies `%m/%d/%y` and then inference to the whole column, dropping no
individual row: a successful parse keeps every row, each parsed by the
two-digit format or by inference. -/
theorem end_date_parse_fallback_chain :
    (∀ (dates : List String) (d : String) (t : Date),
        (d, t) ∈ parse_end_date_app dates →
          d ∈ dates ∧ selectFormat dates d = some t
            ∧ (parseMDY4 d = some t ∨ parseMDY2 d = some t ∨ inferDate d = some t))
    ∧ (∀ (dates : List String) (d : String), d ∈ dates →
        ((∃ t, (d, t) ∈ parse_end_date_app dates) ↔ (selectFormat dates d).isSome))
    ∧ (∀ dates : List String,
        ((dates.any fun d => (parseMDY4 d).isSome) = true → selectFormat dates = parseMDY4)
          ∧ ((dates.any fun d => (parseMDY4 d).isSome) = false →
              (dates.any fun d => (parseMDY2 d).isSome) = true →
                selectFormat dates = parseMDY2)
          ∧ ((dates.any fun d => (parseMDY4 d).isSome) = false →
              (dates.any fun d => (parseMDY2 d).isSome) = false →
                selectFormat dates = inferDate))
    ∧ (∀ (dates : List String) (rs : List (String × Date)),
        parse_end_date_batch dates = some rs →
          rs.length = dates.length
            ∧ ∀ p ∈ rs, p.1 ∈ dates
                ∧ (parseMDY2 p.1 = some p.2 ∨ inferDate p.1 = some p.2)) := by
  have hsel : ∀ dates : List String,
      selectFormat dates = parseMDY4 ∨ selectFormat dates = parseMDY2
        ∨ selectFormat dates = inferDate := by
    intro dates
    unfold selectFormat
    split
    · exact Or.inl rfl
    · split
      · exact Or.inr (Or.inl rfl)
      · exact Or.inr (Or.inr rfl)
  refine ⟨?_, ?_, ?_, ?_⟩
  · intro dates d t hmem
    unfold parse_end_date_app at hmem
    rcases List.mem_filterMap.mp hmem with ⟨d', hd', hf⟩
    rcases Option.map_eq_some'.mp hf with ⟨t', ht', hpair⟩
    have hd : d' = d := congrArg Prod.fst hpair
    have ht : t' = t := congrArg Prod.snd hpair
    subst hd
    subst ht
    refine ⟨hd', ht', ?_⟩
    rcases hsel dates with hs | hs | hs <;> rw [hs] at ht'
    · exact Or.inl ht'
    · exact Or.inr (Or.inl ht')
    · exact Or.inr (Or.inr ht')
  · intro dates d hd
    constructor
    · rintro ⟨t, hmem⟩
      unfold parse_end_date_app at hmem
      rcases List.mem_filterMap.mp hmem with ⟨d', -, hf⟩
      rcases Option.map_eq_some'.mp hf with ⟨t', ht', hpair⟩
      have : d' = d := congrArg Prod.fst hpair
      subst this
      rw [ht']
      rfl
    · intro hsome
      rcases Option.isSome_iff_exists.mp hsome with ⟨t, ht⟩
      refine ⟨t, ?_⟩
      unfold parse_end_date_app
      exact List.mem_filterMap.mpr ⟨d, hd, by rw [ht]; rfl⟩
  · intro dates
    refine ⟨?_, ?_, ?_⟩
    · intro h4
      unfold selectFormat
      rw [if_pos h4]
    · intro h4 h2
      unfold selectFormat
      rw [if_neg (by simp [h4]), if_pos h2]
    · intro h4 h2
      unfold selectFormat
      rw [if_neg (by simp [h4]), if_neg (by simp [h2])]
  · intro dates rs h
    unfold parse_end_date_batch at h
    cases h2 : allSome (dates.map fun d => (parseMDY2 d).map fun t => (d, t)) with
    | some rs0 =>
      rw [h2] at h
      simp only [Option.some.injEq] at h
      subst h
      constructor
      · rw [allSome_length _ _ h2, List.length_map]
      · intro p hp
        rcases List.mem_map.mp (allSome_mem _ _ h2 p hp) with ⟨d, hd, hf⟩
        rcases Option.map_eq_some'.mp hf with ⟨t, ht, rfl⟩
        exact ⟨hd, Or.inl ht⟩
    | none =>
      rw [h2] at h
      simp only [] at h
      constructor
      · rw [allSome_length _ _ h, List.length_map]
      · intro p hp
        rcases List.mem_map.mp (allSome_mem _ _ h p hp) with ⟨d, hd, hf⟩
        rcases Option.map_eq_some'.mp hf with ⟨t, ht, rfl⟩
        exact ⟨hd, Or.inr ht⟩

/-- C7 amended witness: the retention criterion instantiated on a
one-element column. -/
theorem end_date_parse_fallback_chain_witness :
    (∃ t, ("06/30/23", t) ∈ parse_end_date_app ["06/30/23"])
      ↔ (selectFormat ["06/30/23"] "06/30/23").isSome :=
  end_date_parse_fallback_chain.2.1 ["06/30/23"] "06/30/23" (by decide)

/-- C8: an empty resolved list fails with the no-facilities error
regardless of the sources (before any source is filtered); a non-empty
resolved list with no matching row in any source fails with the no-data
error; in every other case the Aggregated Table is returned. -/
theorem aggregation_error_cases (sources : List (List Record)) (resolved : List String) :
    (resolved = [] → runAggregation sources resolved = .error .noFacilitiesResolvedError)
    ∧ (resolved ≠ [] → (∀ s ∈ sources, filterSource resolved s = []) →
        runAggregation sources resolved = .error .noDataFoundError)
    ∧ (resolved ≠ [] → (∃ s ∈ sources, filterSource resolved s ≠ []) →
        runAggregation sources resolved = .ok (aggregateRows sources resolved)) := by
  refine ⟨?_, ?_, ?_⟩
  · intro h
    simp [runAggregation, h]
  · intro h1 h2
    have hkept : (sources.map (filterSource resolved)).filter (fun f => f ≠ []) = [] := by
      rw [List.filter_eq_nil_iff]
      intro f hf
      rcases List.mem_map.mp hf with ⟨s, hs, rfl⟩
      simp [h2 s hs]
    unfold runAggregation
    rw [if_neg h1, if_pos hkept]
  · intro h1 h2
    rcases h2 with ⟨s, hs, hne⟩
    have hkept : (sources.map (filterSource resolved)).filter (fun f => f ≠ []) ≠ [] := by
      intro hk
      have hmem : filterSource resolved s
          ∈ (sources.map (filterSource resolved)).filter (fun f => f ≠ []) :=
        List.mem_filter.mpr ⟨List.mem_map_of_mem _ hs, decide_eq_true hne⟩
      rw [hk] at hmem
      simp at hmem
    unfold runAggregation
    rw [if_neg h1, if_neg hkept, flatten_filter_ne_nil]
    rfl

/-- C8 witness: the empty resolved list on an empty source batch produces
the no-facilities error. -/
theorem aggregation_error_cases_witness :
    runAggregation ([] : List (List Record)) ([] : List String)
      = .error .noFacilitiesResolvedError :=
  (aggregation_error_cases [] []).1 rfl

/-- C9 counterexample: the batch script's query list for the input
`Mercy,,` keeps the items that are empty after trimming, so the empty
string does appear as a query. -/
theorem batch_query_list_keeps_empty :
    parse_queries_batch "Mercy,," = ["Mercy", "", ""]
    ∧ "" ∈ parse_queries_batch "Mercy,," :=
  ⟨by decide, by decide⟩

/-- C9 amended: the Streamlit app obtains the query list by splitting on
commas, trimming each item and discarding the items empty after trimming,
so no empty query appears there; the batch script performs the same split
and trim but keeps empty items. -/
theorem query_list_construction :
    (∀ s : String, parse_queries_app s = (parse_queries_batch s).filter fun q => q ≠ "")
    ∧ ∀ (s q : String), q ∈ parse_queries_app s → q ≠ "" := by
  constructor
  · intro s
    rfl
  · intro s q hq
    unfold parse_queries_app at hq
    exact of_decide_eq_true (List.mem_filter.mp hq).2

/-- C9 amended witness: a concrete retained query is non-empty. -/
theorem query_list_construction_witness : ("a" : String) ≠ "" :=
  query_list_construction.2 "a,b" "a" (by decide)

/-- C10: the Aggregated Table equals the first-occurrence scan of the
combined row list (sources in enumeration order, rows in source order), so
duplicate survivorship keeps the first occurrence in that combined order;
and the table is a sublist of the combined list, so row order is the
combined order. -/
theorem aggregation_order_survivorship (sources : List (List Record)) (resolved : List String) :
    aggregateRows sources resolved = keepFirstOccurrences (aggConcat sources resolved)
    ∧ (aggregateRows sources resolved).Sublist (aggConcat sources resolved) := by
  constructor
  · rw [keepFirstOccurrences_eq_pdDedup]
    rfl
  · exact sublist_dedupAux _ _

end CareAgg
